import Mathlib

/-!
# DocuFold docstring detection engine — shallow embedding

This file embeds the core of the DocuFold VSCode extension in Lean 4:

* `DocstringDetector` (src/detectors, the pattern registry and the line-scanning
  detection algorithm, including preview extraction and duplicate removal),
* `TTLCache` (src/utils/performanceUtils.ts),
* the language map (src/utils/languageUtils.ts),
* the cancellation-relevant skeleton of `DocuFoldRangeProvider.provideFoldingRanges`
  (src/providers/foldingRangeProvider.ts).

Strings are modelled as `List Char` (`Line`); the JavaScript string operations and
the concrete regular expressions of the registered patterns are translated into
executable functions on `List Char`.  JS `String.prototype.length` counts UTF-16
code units while `List.length` counts code points; these agree on all ASCII text
(every concrete input used below is ASCII).  The `while` loops of the scanner are
translated into structurally recursive functions on an explicit fuel argument;
the fuel supplied at each call site is an upper bound on the number of remaining
loop iterations, so the fuel-exhaustion branch is never the reason a scan stops.
-/

namespace DocuFold

/-- A line of source text (JS string as a list of characters). -/
abbrev Line := List Char

/-- The character class of the JS regex `\s` / `String.prototype.trim`,
restricted to the ASCII whitespace characters. -/
def wsChar (c : Char) : Bool :=
  c = ' ' || c = '\t' || c = '\n' || c = '\r' || c = '\x0b' || c = '\x0c'

/-- Drop leading whitespace (the `^\s*` part of the anchored matchers). -/
def dropWs (l : Line) : Line := l.dropWhile wsChar

/-- Drop trailing whitespace (the `\s*$` part of the matchers). -/
def trimWsEnd (l : Line) : Line := (l.reverse.dropWhile wsChar).reverse

/-- JS `String.prototype.trim`. -/
def trimStr (l : Line) : Line := trimWsEnd (dropWs l)

/-- `startsWithL pre l` : `pre` is a prefix of `l`. -/
def startsWithL : Line → Line → Bool
  | [], _ => true
  | _ :: _, [] => false
  | a :: as, b :: bs => a = b && startsWithL as bs

/-- `endsWithL suf l` : `suf` is a suffix of `l`. -/
def endsWithL (suf l : Line) : Bool := startsWithL suf.reverse l.reverse

/-- JS `text.split('\n')` (split on the literal separator, keeping empty pieces;
`"".split('\n')` is `[""]`). -/
def splitOnNl : Line → List Line
  | [] => [[]]
  | c :: rest =>
    if c = '\n' then [] :: splitOnNl rest
    else
      match splitOnNl rest with
      | l :: ls => (c :: l) :: ls
      | [] => [[c]]

/-- JS `lines.join('\n')`. -/
def joinNl : List Line → Line
  | [] => []
  | [l] => l
  | l :: ls => l ++ '\n' :: joinNl ls

/-- JS `lines.slice(i, j + 1).join('\n')` — the raw text of lines `i..j`. -/
def sliceJoin (lines : List Line) (i j : Nat) : Line :=
  joinNl ((lines.drop i).take (j + 1 - i))

/-- JS `lines[i]`; out-of-range access is modelled by the empty line
(the scanner only reads indices below `lines.length`). -/
def lineAt (lines : List Line) (i : Nat) : Line := lines.getD i []

/-! ## Preview extraction (`DocstringDetector.extract*Preview`) -/

/-- The single-quote character, written by code point to keep the source ASCII-clean. -/
def sqChar : Char := Char.ofNat 39

/-- The marker `"""`. -/
def dq3 : Line := ['"', '"', '"']

/-- The marker `'''`. -/
def sq3 : Line := [sqChar, sqChar, sqChar]

/-- The marker `/**`. -/
def jsOpen : Line := ['/', '*', '*']

/-- The marker `*/`. -/
def jsClose : Line := ['*', '/']

/-- The marker `///`. -/
def slash3 : Line := ['/', '/', '/']

/-- The ellipsis `'...'` appended by `limitPreviewLength`. -/
def ellipsis : Line := ['.', '.', '.']

/-- The fallback label for Python docstrings. -/
def docstringFallback : Line := "Docstring".data

/-- The fallback label for block-comment / XML documentation. -/
def documentationFallback : Line := "Documentation".data

/-- JS `content.replace(/"""|'''/g, '')`: remove every (left-to-right,
non-overlapping) occurrence of `"""` or `'''`, trying `"""` first at each
position, exactly as the regex alternation does. -/
def stripTriples : Line → Line
  | '"' :: '"' :: '"' :: rest => stripTriples rest
  | c1 :: c2 :: c3 :: rest =>
    if c1 = sqChar && c2 = sqChar && c3 = sqChar then stripTriples rest
    else c1 :: stripTriples (c2 :: c3 :: rest)
  | c :: rest => c :: stripTriples rest
  | [] => []

/-- JS `content.replace(/\/\*\*|\*\//g, '')`: remove every occurrence of
`/**` or `*/`, trying `/**` first at each position. -/
def stripJsdocTokens : Line → Line
  | '/' :: '*' :: '*' :: rest => stripJsdocTokens rest
  | '*' :: '/' :: rest => stripJsdocTokens rest
  | c :: rest => c :: stripJsdocTokens rest
  | [] => []

/-- JS `content.replace(/\/\/\//g, '')`: remove every occurrence of `///`. -/
def stripSlash3 : Line → Line
  | '/' :: '/' :: '/' :: rest => stripSlash3 rest
  | c :: rest => c :: stripSlash3 rest
  | [] => []

/-- JS `line.replace(/^\s*\*\s?/, '')`: if the line starts with optional
whitespace, a `*`, and at most one further whitespace character, remove that
prefix; otherwise the line is unchanged. -/
def stripLeadingStar (line : Line) : Line :=
  match dropWs line with
  | '*' :: rest =>
    match rest with
    | c :: rest2 => if wsChar c then rest2 else c :: rest2
    | [] => []
  | _ => line

/-- `DocstringDetector.limitPreviewLength`: the empty-after-trim preview falls
back to the fixed label; a preview longer than 60 is cut to 57 characters and
suffixed with `'...'`. -/
def limitPreviewLength (preview fallback : Line) : Line :=
  if trimStr preview = [] then fallback
  else if preview.length > 60 then preview.take 57 ++ ellipsis
  else preview

/-- The `for`-loop of `extractPythonPreview` / `extractCSharpPreview`: the first
line whose trim is non-empty, trimmed; if there is none, `preview` keeps the
value it had before the loop (`dflt`). -/
def firstMeaningful (dflt : Line) : List Line → Line
  | [] => dflt
  | l :: rest => if trimStr l ≠ [] then trimStr l else firstMeaningful dflt rest

/-- `DocstringDetector.extractPythonPreview`. -/
def extractPythonPreview (content : Line) : Line :=
  let stripped := trimStr (stripTriples content)
  limitPreviewLength (firstMeaningful stripped (splitOnNl stripped)) docstringFallback

/-- The `for`-loop of `extractBlockCommentPreview`: the first line that is
non-empty after removing a leading `*` (via `^\s*\*\s?`) and trimming. -/
def firstMeaningfulStar (dflt : Line) : List Line → Line
  | [] => dflt
  | l :: rest =>
    if trimStr (stripLeadingStar l) ≠ [] then trimStr (stripLeadingStar l)
    else firstMeaningfulStar dflt rest

/-- `DocstringDetector.extractBlockCommentPreview`. -/
def extractBlockCommentPreview (content : Line) : Line :=
  let stripped := trimStr (stripJsdocTokens content)
  limitPreviewLength (firstMeaningfulStar stripped (splitOnNl stripped)) documentationFallback

/-- The text after the first occurrence of `pat` (JS leftmost regex match). -/
def findAfter (pat : Line) : Line → Option Line
  | [] => none
  | c :: rest =>
    if startsWithL pat (c :: rest) then some ((c :: rest).drop pat.length)
    else findAfter pat rest

/-- The text before the first occurrence of `pat`. -/
def findBefore (pat : Line) : Line → Option Line
  | [] => none
  | c :: rest =>
    if startsWithL pat (c :: rest) then some []
    else (findBefore pat rest).map (c :: ·)

/-- JS `trimmed.match(/<summary>(.*?)<\/summary>/)`: the (lazy, hence shortest)
text between the first `<summary>` and the first `</summary>` after it. -/
def xmlSummaryInner (l : Line) : Option Line :=
  (findAfter "<summary>".data l).bind (findBefore "</summary>".data)

/-- JS `trimmed.match(/>([^<]+)</)`: scan left to right for a `>` followed by a
non-empty run of non-`<` characters terminated by a `<`; the run is group 1. -/
def angleInner : Line → Option Line
  | [] => none
  | '>' :: rest =>
    if (rest.takeWhile (fun c => c ≠ '<')) ≠ [] &&
        (rest.takeWhile (fun c => c ≠ '<')).length < rest.length then
      some (rest.takeWhile (fun c => c ≠ '<'))
    else angleInner rest
  | _ :: rest => angleInner rest

/-- The `else` arm of the C# XML handling: prefer the content of some XML tag
(`/>([^<]+)</`), otherwise the trimmed line itself. -/
def csharpAngleOrSelf (t : Line) : Line :=
  match angleInner t with
  | some c => trimStr c
  | none => t

/-- The `for`-loop of `extractCSharpPreview`: on the first line with non-empty
trim, prefer the non-empty content of a `<summary>` wrapper, then the content of
any XML tag, then the trimmed line; no non-empty line leaves `dflt`. -/
def csharpFirstLine (dflt : Line) : List Line → Line
  | [] => dflt
  | l :: rest =>
    if trimStr l ≠ [] then
      match xmlSummaryInner (trimStr l) with
      | some inner => if inner ≠ [] then trimStr inner else csharpAngleOrSelf (trimStr l)
      | none => csharpAngleOrSelf (trimStr l)
    else csharpFirstLine dflt rest

/-- `DocstringDetector.extractCSharpPreview`. -/
def extractCSharpPreview (content : Line) : Line :=
  let stripped := trimStr (stripSlash3 content)
  limitPreviewLength (csharpFirstLine stripped (splitOnNl stripped)) documentationFallback

/-- The `for`-loop of `extractGenericPreview`: first line with non-empty trim. -/
def firstNonEmptyTrimmedLine : List Line → Option Line
  | [] => none
  | l :: rest => if trimStr l ≠ [] then some (trimStr l) else firstNonEmptyTrimmedLine rest

/-- `DocstringDetector.extractGenericPreview`. -/
def extractGenericPreview (content : Line) : Line :=
  match firstNonEmptyTrimmedLine (splitOnNl content) with
  | some t => limitPreviewLength t documentationFallback
  | none => documentationFallback

/-- `DocstringDetector.extractPreviewByLanguage` (the per-language `switch`). -/
def extractPreviewByLanguage (content : Line) (language : String) : Line :=
  if language = "python" then extractPythonPreview content
  else if language = "csharp" then extractCSharpPreview content
  else if language = "javascript" || language = "typescript" || language = "java"
      || language = "php" || language = "jsx-tags" || language = "tsx-tags" then
    extractBlockCommentPreview content
  else extractGenericPreview content

/-! ## Data model (src/types/index.ts) -/

/-- `vscode.Position` (0-based line and UTF-16 column). -/
structure Position where
  line : Nat
  character : Nat
deriving DecidableEq

/-- `DocstringInfo`. -/
structure DocstringInfo where
  startPosition : Position
  endPosition : Position
  content : Line
  preview : Line
  language : String
  isSingleLine : Bool
deriving DecidableEq

/-- `DocstringPattern`, with each concrete regex translated to executable
matchers:

* `startTest line` — `line.match(startPattern)` succeeds with non-empty group 1
  (`startMatch && startMatch[1]`);
* `startIdx line` — `startMatch.index || 0` (0 for all registered patterns,
  whose start regexes are anchored with `^`);
* `endTest line` — `endPattern.test(line)`;
* `singleTest line` — `singleLinePattern` is present and
  `line.match(singleLinePattern)` succeeds with non-empty group 1 (a pattern
  without a `singleLinePattern` is modelled by `singleTest = fun _ => false`,
  which skips the single-line branch exactly as the code does);
* `singleGroup line` — group 1 of that match. -/
structure DocstringPattern where
  language : String
  startTest : Line → Bool
  startIdx : Line → Nat
  endTest : Line → Bool
  singleTest : Line → Bool
  singleGroup : Line → Line
  multiline : Bool

/-- The triple-quote pattern family (`q` is `"""` or `'''`):
`startPattern = /^\s*(q)/`, `endPattern = /(q)\s*$/`,
`singleLinePattern = /^\s*(q.+q)\s*$/`.  The single-line group is greedy, so it
is exactly the trimmed line, and `.+` forces at least one character between the
two markers (trimmed length at least 7). -/
def tripleQuotePattern (lang : String) (q : Line) : DocstringPattern where
  language := lang
  startTest := fun line => startsWithL q (dropWs line)
  startIdx := fun _ => 0
  endTest := fun line => endsWithL q (trimWsEnd line)
  singleTest := fun line =>
    startsWithL q (trimStr line) && endsWithL q (trimStr line)
      && decide ((trimStr line).length ≥ 7)
  singleGroup := fun line => trimStr line
  multiline := true

/-- The JSDoc pattern family: `startPattern = /^\s*(\/\*\*)/`,
`endPattern = /(\*\/)\s*$/`, `singleLinePattern = /^\s*(\/\*\*.+\*\/)\s*$/`
(group = trimmed line, length at least 3 + 1 + 2 = 6). -/
def jsdocPattern (lang : String) : DocstringPattern where
  language := lang
  startTest := fun line => startsWithL jsOpen (dropWs line)
  startIdx := fun _ => 0
  endTest := fun line => endsWithL jsClose (trimWsEnd line)
  singleTest := fun line =>
    startsWithL jsOpen (trimStr line) && endsWithL jsClose (trimStr line)
      && decide ((trimStr line).length ≥ 6)
  singleGroup := fun line => trimStr line
  multiline := true

/-- The C# `///` pattern: `startPattern = /^\s*(\/\/\/)/`, `endPattern = /$/`
(matches every line, unused since `multiline` is false),
`singleLinePattern = /^\s*(\/\/\/.+)$/` (group = the line from the first `/` to
its end, needing at least one character after `///`; also unused by the
per-line scanner). -/
def csharpSlashPattern : DocstringPattern where
  language := "csharp"
  startTest := fun line => startsWithL slash3 (dropWs line)
  startIdx := fun _ => 0
  endTest := fun _ => true
  singleTest := fun line =>
    startsWithL slash3 (dropWs line) && decide ((dropWs line).length ≥ 4)
  singleGroup := fun line => dropWs line
  multiline := false

/-- The registry contents built by `initializePatterns`, in registration order.
The registry `Map<SupportedLanguage, DocstringPattern[]>` appends per language;
filtering this flat list by language reproduces each per-language list. -/
def builtinPatterns : List DocstringPattern :=
  [ tripleQuotePattern "python" dq3,
    tripleQuotePattern "python" sq3,
    jsdocPattern "javascript",
    jsdocPattern "typescript",
    jsdocPattern "java",
    csharpSlashPattern,
    jsdocPattern "csharp",
    jsdocPattern "php",
    jsdocPattern "jsx-tags",
    jsdocPattern "tsx-tags" ]

/-- `DocstringDetector.getPatterns` / `this.patterns.get(language)`. -/
def getPatterns (lang : String) : List DocstringPattern :=
  builtinPatterns.filter (fun p => p.language = lang)

/-! ## The scanning algorithm (`detectMultilineDocstrings`,
`detectSingleLineDocstrings`, `performDetection`, `detectDocstrings`) -/

/-- The block pushed by the single-line branch of `detectMultilineDocstrings`. -/
def mkSingleBlock (p : DocstringPattern) (lang : String) (line : Line) (i : Nat) :
    DocstringInfo where
  startPosition := ⟨i, p.startIdx line⟩
  endPosition := ⟨i, line.length⟩
  content := p.singleGroup line
  preview := extractPreviewByLanguage (p.singleGroup line) lang
  language := lang
  isSingleLine := true

/-- The block pushed by the multi-line branch of `detectMultilineDocstrings`. -/
def mkMultiBlock (p : DocstringPattern) (lang : String) (lines : List Line) (i j : Nat) :
    DocstringInfo where
  startPosition := ⟨i, p.startIdx (lineAt lines i)⟩
  endPosition := ⟨j, (lineAt lines j).length⟩
  content := sliceJoin lines i j
  preview := extractPreviewByLanguage (sliceJoin lines i j) lang
  language := lang
  isSingleLine := false

/-- The block pushed by `detectSingleLineDocstrings` for the run `i..j`. -/
def mkPerLineBlock (p : DocstringPattern) (lang : String) (lines : List Line) (i j : Nat) :
    DocstringInfo where
  startPosition := ⟨i, p.startIdx (lineAt lines i)⟩
  endPosition := ⟨j, (lineAt lines j).length⟩
  content := sliceJoin lines i j
  preview := extractPreviewByLanguage (sliceJoin lines i j) lang
  language := lang
  isSingleLine := decide (i = j)

/-- The inner `while (endLine < lines.length && !found)` search of
`detectMultilineDocstrings`: the first index `j ≥ i` whose line is non-empty
(truthy) and satisfies the end pattern; `none` when the loop falls off the end
of the file. -/
def findEndAux (p : DocstringPattern) (lines : List Line) : Nat → Nat → Option Nat
  | 0, _ => none
  | fuel + 1, j =>
    if j < lines.length then
      if lineAt lines j ≠ [] && p.endTest (lineAt lines j) then some j
      else findEndAux p lines fuel (j + 1)
    else none

/-- `findEnd p lines i` starts the end search at the start line `i` itself. -/
def findEnd (p : DocstringPattern) (lines : List Line) (i : Nat) : Option Nat :=
  findEndAux p lines (lines.length - i) i

/-- The outer `while (i < lines.length)` loop of `detectMultilineDocstrings`. -/
def scanMultilineAux (p : DocstringPattern) (lang : String) (lines : List Line) :
    Nat → Nat → List DocstringInfo
  | 0, _ => []
  | fuel + 1, i =>
    if i < lines.length then
      if lineAt lines i = [] then scanMultilineAux p lang lines fuel (i + 1)
      else if p.startTest (lineAt lines i) then
        if p.singleTest (lineAt lines i) then
          mkSingleBlock p lang (lineAt lines i) i :: scanMultilineAux p lang lines fuel (i + 1)
        else
          match findEnd p lines i with
          | some j => mkMultiBlock p lang lines i j :: scanMultilineAux p lang lines fuel (j + 1)
          | none => scanMultilineAux p lang lines fuel (i + 1)
      else scanMultilineAux p lang lines fuel (i + 1)
    else []

/-- `DocstringDetector.detectMultilineDocstrings`. -/
def scanMultiline (p : DocstringPattern) (lang : String) (lines : List Line) :
    List DocstringInfo :=
  scanMultilineAux p lang lines lines.length 0

/-- The inner `while (endLine + 1 < lines.length)` extension loop of
`detectSingleLineDocstrings`: extend `j` while the next line is non-empty and
matches the start pattern. -/
def extendEndAux (p : DocstringPattern) (lines : List Line) : Nat → Nat → Nat
  | 0, j => j
  | fuel + 1, j =>
    if j + 1 < lines.length then
      if lineAt lines (j + 1) ≠ [] && p.startTest (lineAt lines (j + 1)) then
        extendEndAux p lines fuel (j + 1)
      else j
    else j

/-- The end of the consecutive `///` run starting at line `i`. -/
def extendEnd (p : DocstringPattern) (lines : List Line) (i : Nat) : Nat :=
  extendEndAux p lines (lines.length - i) i

/-- The outer `while (i < lines.length)` loop of `detectSingleLineDocstrings`. -/
def scanPerLineAux (p : DocstringPattern) (lang : String) (lines : List Line) :
    Nat → Nat → List DocstringInfo
  | 0, _ => []
  | fuel + 1, i =>
    if i < lines.length then
      if lineAt lines i = [] then scanPerLineAux p lang lines fuel (i + 1)
      else if p.startTest (lineAt lines i) then
        mkPerLineBlock p lang lines i (extendEnd p lines i)
          :: scanPerLineAux p lang lines fuel (extendEnd p lines i + 1)
      else scanPerLineAux p lang lines fuel (i + 1)
    else []

/-- `DocstringDetector.detectSingleLineDocstrings`. -/
def scanPerLine (p : DocstringPattern) (lang : String) (lines : List Line) :
    List DocstringInfo :=
  scanPerLineAux p lang lines lines.length 0

/-- The de-duplication key: the string
`` `${startLine}-${startColumn}-${endLine}-${endColumn}` `` of
`removeDuplicates`.  Joining decimal numerals with `-` is injective on the four
numbers, so the key is modelled by the 4-tuple itself. -/
def dupKey (d : DocstringInfo) : Nat × Nat × Nat × Nat :=
  (d.startPosition.line, d.startPosition.character, d.endPosition.line, d.endPosition.character)

/-- The `filter` of `removeDuplicates`, with the `seen` set threaded through. -/
def removeDupAux : List DocstringInfo → List (Nat × Nat × Nat × Nat) → List DocstringInfo
  | [], _ => []
  | d :: rest, seen =>
    if dupKey d ∈ seen then removeDupAux rest seen
    else d :: removeDupAux rest (dupKey d :: seen)

/-- `DocstringDetector.removeDuplicates`. -/
def removeDuplicates (ds : List DocstringInfo) : List DocstringInfo :=
  removeDupAux ds []

/-- `DocstringDetector.performDetection`: run every registered pattern for the
language over the line array (in registration order, multiline and per-line
scans as dictated by the `multiline` flag) and de-duplicate the concatenation.
A language with no patterns yields `[]`, as the early return does. -/
def performDetection (patterns : List DocstringPattern) (lang : String)
    (lines : List Line) : List DocstringInfo :=
  removeDuplicates (patterns.flatMap fun p =>
    if p.multiline then scanMultiline p lang lines else scanPerLine p lang lines)

/-- `LANGUAGE_MAP` of src/utils/languageUtils.ts. -/
def languageMap : List (String × String) :=
  [ ("python", "python"),
    ("javascript", "javascript"),
    ("typescript", "typescript"),
    ("javascriptreact", "jsx-tags"),
    ("typescriptreact", "tsx-tags"),
    ("java", "java"),
    ("csharp", "csharp"),
    ("php", "php") ]

/-- `detectLanguage` of src/utils/languageUtils.ts. -/
def detectLanguage (languageId : String) : Option String :=
  (languageMap.find? (fun e => e.1 = languageId)).map (·.2)

/-- `getSupportedLanguageIds` of src/utils/languageUtils.ts. -/
def supportedLanguageIds : List String := languageMap.map (·.1)

/-- `DocstringDetector.detectDocstrings`, as a pure function of the document
text and language id.  The `TTLCache` wrapper around this computation returns a
previously computed result for the same `(uri, version, language)` key and is
modelled separately by `TTLCache` below; the cache-miss path is exactly this
function.  An unmapped language id returns `[]` before any scanning. -/
def detectDocstrings (text : String) (languageId : String) : List DocstringInfo :=
  match detectLanguage languageId with
  | none => []
  | some lang => performDetection (getPatterns lang) lang (splitOnNl text.data)

/-! ## `TTLCache` (src/utils/performanceUtils.ts)

Time (`Date.now()`) is an explicit `Nat` argument in milliseconds; the JS `Map`
is an association list with at most one entry per key (`set` replaces in place,
as `Map.prototype.set` does). -/

/-- The `{ value, expiry }` record stored per key. -/
structure CacheEntry (V : Type) where
  value : V
  expiry : Nat
deriving DecidableEq

/-- The `TTLCache` object: its fixed `ttl` and the backing `Map`. -/
structure TTLCache (K V : Type) where
  ttl : Nat
  entries : List (K × CacheEntry V)
deriving DecidableEq

/-- `Map.prototype.get`. -/
def mapGet [DecidableEq K] (entries : List (K × CacheEntry V)) (k : K) :
    Option (CacheEntry V) :=
  (entries.find? (fun e => e.1 = k)).map (·.2)

/-- `Map.prototype.set`: replace the entry for `k` in place, else append. -/
def mapSet [DecidableEq K] (entries : List (K × CacheEntry V)) (k : K)
    (v : CacheEntry V) : List (K × CacheEntry V) :=
  match entries with
  | [] => [(k, v)]
  | (k', v') :: rest => if k' = k then (k, v) :: rest else (k', v') :: mapSet rest k v

/-- `Map.prototype.delete`. -/
def mapDelete [DecidableEq K] (entries : List (K × CacheEntry V)) (k : K) :
    List (K × CacheEntry V) :=
  entries.filter (fun e => ¬ e.1 = k)

/-- `TTLCache.get` at time `now`: `undefined` for a missing key; an entry past
its expiry (`now > item.expiry`) is deleted (lazy expiry) and `undefined` is
returned; otherwise the stored value.  Returns the possibly-updated cache. -/
def cacheGet [DecidableEq K] (c : TTLCache K V) (k : K) (now : Nat) :
    Option V × TTLCache K V :=
  match mapGet c.entries k with
  | none => (none, c)
  | some item =>
    if now > item.expiry then (none, { c with entries := mapDelete c.entries k })
    else (some item.value, c)

/-- `TTLCache.set` at time `now`: store with `expiry = now + ttl`. -/
def cacheSet [DecidableEq K] (c : TTLCache K V) (k : K) (v : V) (now : Nat) :
    TTLCache K V :=
  { c with entries := mapSet c.entries k ⟨v, now + c.ttl⟩ }

/-- `TTLCache.cleanup` at time `now`: drop every entry past its expiry. -/
def cacheCleanup [DecidableEq K] (c : TTLCache K V) (now : Nat) : TTLCache K V :=
  { c with entries := c.entries.filter (fun e => ¬ now > e.2.expiry) }

/-- `TTLCache.clear`. -/
def cacheClear (c : TTLCache K V) : TTLCache K V :=
  { c with entries := [] }

/-! ## `DocuFoldRangeProvider.provideFoldingRanges`
(src/providers/foldingRangeProvider.ts)

Only the cancellation-relevant skeleton is embedded: the provider's own
`TTLCache` of folding ranges (whose hit path returns a previously computed list
unchanged) and the `try/catch` wrapper are elided, so this is the cache-miss
path.  The VSCode `CancellationToken` is modelled as a function from the sample
index to the sampled value of `isCancellationRequested`: sample 0 is the check
at function entry, sample 1 the check after `detectDocstrings` returns, and
samples 2, 3, … the per-docstring checks inside `calculateFoldingRanges`.
`detectDocstrings` itself takes no token — see its definition above, which has
no signal parameter, mirroring its `(document: vscode.TextDocument)` signature. -/

/-- `vscode.FoldingRange` (kind is always `Comment` here and is omitted). -/
structure FoldingRange where
  startLine : Nat
  endLine : Nat
deriving DecidableEq

/-- `DocuFoldRangeProvider.isValidFoldingRange`.  The `line < 0` checks of the
source cannot fire with `Nat` coordinates (the scanner never produces negative
lines) and are dropped. -/
def isValidFoldingRange (lineCount : Nat) (d : DocstringInfo) : Bool :=
  if d.startPosition.line ≥ lineCount || d.endPosition.line ≥ lineCount then false
  else if d.startPosition.line ≥ d.endPosition.line then false
  else if d.endPosition.line - d.startPosition.line < 1 then false
  else true

/-- The `for`-loop of `calculateFoldingRanges`, sampling the token once per
docstring (`n` is the next sample index); `break` on a cancelled sample returns
the ranges accumulated so far. -/
def calcFoldingRangesAux (tok : Nat → Bool) (lineCount : Nat) :
    List DocstringInfo → Nat → List FoldingRange
  | [], _ => []
  | d :: rest, n =>
    if tok n then []
    else if d.isSingleLine && decide (d.startPosition.line = d.endPosition.line) then
      calcFoldingRangesAux tok lineCount rest (n + 1)
    else if isValidFoldingRange lineCount d then
      ⟨d.startPosition.line, d.endPosition.line⟩ :: calcFoldingRangesAux tok lineCount rest (n + 1)
    else calcFoldingRangesAux tok lineCount rest (n + 1)

/-- `DocuFoldRangeProvider.provideFoldingRanges` (cache-miss path): check the
token at entry, run the (token-less) detector, check the token again, then
convert blocks to ranges with a per-block token check. -/
def provideFoldingRanges (tok : Nat → Bool) (text languageId : String) :
    List FoldingRange :=
  if tok 0 then []
  else
    if tok 1 then []
    else calcFoldingRangesAux tok (splitOnNl text.data).length
      (detectDocstrings text languageId) 2

/-- Modelled from the spec: the engine's public detection entry point as the
spec describes it — an interruptible operation that "must check an externally
supplied cancellation signal between per-pattern passes (not mid-pattern) and
return whatever has been accumulated so far (or an empty list) once the signal
is observed" (the signal is also checked "before starting a new document's
detection").  No function of the source has this shape: `detectDocstrings`
takes no cancellation signal.  `tok n` is the signal sampled before the
`n`-th pattern pass. -/
def cancellableGo (tok : Nat → Bool) (lang : String) (lines : List Line) :
    Nat → List DocstringPattern → List DocstringInfo
  | _, [] => []
  | n, p :: ps =>
    if tok n then []
    else (if p.multiline then scanMultiline p lang lines else scanPerLine p lang lines)
      ++ cancellableGo tok lang lines (n + 1) ps

/-- Modelled from the spec: the cancellable entry point claimed by the spec,
wrapping `cancellableGo` the way `detectDocstrings` wraps its pattern loop. -/
def detectDocstringsCancellable (tok : Nat → Bool) (text languageId : String) :
    List DocstringInfo :=
  match detectLanguage languageId with
  | none => []
  | some lang =>
    removeDuplicates (cancellableGo tok lang (splitOnNl text.data) 0 (getPatterns lang))

/-! ## Concrete inputs used by the witnesses and counterexamples -/

/-- Scenario A input. -/
def scenarioAText : String := "def f():\n    \"\"\"Hello world\"\"\"\n    pass"

/-- The single block detected in Scenario A. -/
def scenarioABlock : DocstringInfo :=
  ⟨⟨1, 0⟩, ⟨1, 21⟩, "\"\"\"Hello world\"\"\"".data, "Hello world".data, "python", true⟩

/-- Scenario C input (unterminated docstring). -/
def unclosedText : String := "def f():\n    \"\"\"Unclosed\n    pass"

/-- The line array of `unclosedText`. -/
def unclosedLines : List Line := splitOnNl unclosedText.data

/-- A document consisting of a single `\"\"\"` line: its first line satisfies
both the start and the end matcher of the triple-double-quote pattern, but not
the single-line matcher. -/
def tripleOnlyText : String := "\"\"\""

/-- A Python docstring whose first content line is short but whose second line
is 70 characters, so the marker-stripped raw content exceeds 60 characters. -/
def longLineText : String :=
  ⟨['"', '"', '"', 's', 'h', 'o', 'r', 't', '\n'] ++ List.replicate 70 'a'
    ++ ['\n', '"', '"', '"']⟩

/-- One `\"\"\"…\"\"\"` docstring and one `'''…'''` docstring, so the two
registered Python patterns contribute one block each. -/
def twoQuoteStylesText : String :=
  ⟨['"', '"', '"', 'a', '"', '"', '"', '\n',
    sqChar, sqChar, sqChar, 'b', sqChar, sqChar, sqChar]⟩

/-- A C# document whose `///` doc comment spans a single line; the per-line
scan emits it with `isSingleLine = true` and the exact line text as content. -/
def csharpText : String := "/// <summary>Sum text</summary>\npublic void M() {}"

/-- The single per-line block detected in `csharpText`. -/
def csharpBlock : DocstringInfo :=
  ⟨⟨0, 0⟩, ⟨0, 31⟩, "/// <summary>Sum text</summary>".data, "Sum text".data,
    "csharp", true⟩

/-- A placeholder block used as the default of `List.getD`. -/
def dummyInfo : DocstringInfo := ⟨⟨0, 0⟩, ⟨0, 0⟩, [], [], "", false⟩

/-- A second placeholder block with a different position key. -/
def dummyInfo2 : DocstringInfo := ⟨⟨2, 0⟩, ⟨3, 5⟩, [], [], "", false⟩

/-! ## Splitting and joining lines -/

theorem splitOnNl_ne_nil : ∀ s : Line, splitOnNl s ≠ [] := by
  intro s
  induction s with
  | nil => simp [splitOnNl]
  | cons c rest ih =>
    simp only [splitOnNl]
    split
    · simp
    · split
      · simp
      · simp

theorem not_nl_mem_splitOnNl : ∀ s : Line, ∀ l ∈ splitOnNl s, '\n' ∉ l := by
  intro s
  induction s with
  | nil =>
    intro l hl
    simp [splitOnNl] at hl
    simp [hl]
  | cons c rest ih =>
    intro l hl
    simp only [splitOnNl] at hl
    split at hl
    · rcases List.mem_cons.mp hl with rfl | hl
      · simp
      · exact ih l hl
    · rename_i hc
      split at hl
      · rename_i l₀ ls heq
        rcases List.mem_cons.mp hl with rfl | hl
        · intro hmem
          rcases List.mem_cons.mp hmem with h | h
          · exact hc h.symm
          · exact ih l₀ (heq ▸ List.mem_cons_self _ _) h
        · exact ih l (heq ▸ List.mem_cons_of_mem _ hl)
      · rename_i heq
        exact absurd heq (splitOnNl_ne_nil rest)

theorem splitOnNl_no_nl (l : Line) (h : '\n' ∉ l) : splitOnNl l = [l] := by
  induction l with
  | nil => simp [splitOnNl]
  | cons c rest ih =>
    have hc : ¬ c = '\n' := fun hc => h (hc ▸ List.mem_cons_self _ _)
    have hrest : '\n' ∉ rest := fun hm => h (List.mem_cons_of_mem _ hm)
    simp only [splitOnNl, if_neg hc, ih hrest]

theorem splitOnNl_append_nl (l t : Line) (h : '\n' ∉ l) :
    splitOnNl (l ++ '\n' :: t) = l :: splitOnNl t := by
  induction l with
  | nil => simp [splitOnNl]
  | cons c rest ih =>
    have hc : ¬ c = '\n' := fun hc => h (hc ▸ List.mem_cons_self _ _)
    have hrest : '\n' ∉ rest := fun hm => h (List.mem_cons_of_mem _ hm)
    simp only [List.cons_append, splitOnNl, if_neg hc, List.append_eq, ih hrest]

theorem splitOnNl_joinNl : ∀ ls : List Line, ls ≠ [] → (∀ l ∈ ls, '\n' ∉ l) →
    splitOnNl (joinNl ls) = ls
  | [], h, _ => absurd rfl h
  | [l], _, h => by
    simp only [joinNl]
    exact splitOnNl_no_nl l (h l (List.mem_cons_self _ _))
  | l :: l' :: ls, _, h => by
    have h1 : '\n' ∉ l := h l (List.mem_cons_self _ _)
    have h2 : ∀ x ∈ l' :: ls, '\n' ∉ x := fun x hx => h x (List.mem_cons_of_mem _ hx)
    simp only [joinNl, splitOnNl_append_nl _ _ h1]
    rw [splitOnNl_joinNl (l' :: ls) (by simp) h2]

/-! ## Whitespace stripping preserves membership -/

theorem mem_of_mem_dropWhile {α : Type} (q : α → Bool) {a : α} {l : List α}
    (h : a ∈ l.dropWhile q) : a ∈ l :=
  (List.dropWhile_sublist q).mem h

theorem mem_of_mem_dropWs {c : Char} {l : Line} (h : c ∈ dropWs l) : c ∈ l :=
  mem_of_mem_dropWhile wsChar h

theorem mem_of_mem_trimWsEnd {c : Char} {l : Line} (h : c ∈ trimWsEnd l) : c ∈ l := by
  unfold trimWsEnd at h
  rw [List.mem_reverse] at h
  exact List.mem_reverse.mp (mem_of_mem_dropWhile wsChar h)

theorem mem_of_mem_trimStr {c : Char} {l : Line} (h : c ∈ trimStr l) : c ∈ l :=
  mem_of_mem_dropWs (mem_of_mem_trimWsEnd h)

/-! ## `limitPreviewLength` -/

theorem startsWithL_append_self : ∀ a b : Line, startsWithL a (a ++ b) = true
  | [], _ => rfl
  | c :: cs, b => by simp [startsWithL, startsWithL_append_self cs b]

theorem endsWithL_append_self (e x : Line) : endsWithL e (x ++ e) = true := by
  unfold endsWithL
  rw [List.reverse_append]
  exact startsWithL_append_self e.reverse x.reverse

theorem limitPreviewLength_length_le (s f : Line) (hf : f.length ≤ 60) :
    (limitPreviewLength s f).length ≤ 60 := by
  unfold limitPreviewLength
  split
  · exact hf
  · split
    · rename_i hlen
      simp only [List.length_append, List.length_take, ellipsis, List.length_cons,
        List.length_nil]
      omega
    · rename_i hlen
      omega

theorem limitPreviewLength_truncates (s f : Line) (h1 : trimStr s ≠ [])
    (h2 : s.length > 60) :
    limitPreviewLength s f = s.take 57 ++ ellipsis ∧
    (limitPreviewLength s f).length = 60 ∧
    endsWithL ellipsis (limitPreviewLength s f) = true := by
  have heq : limitPreviewLength s f = s.take 57 ++ ellipsis := by
    unfold limitPreviewLength
    rw [if_neg h1, if_pos h2]
  refine ⟨heq, ?_, ?_⟩
  · rw [heq]
    simp only [List.length_append, List.length_take, ellipsis, List.length_cons,
      List.length_nil]
    omega
  · rw [heq]
    exact endsWithL_append_self ellipsis (s.take 57)

/-! ## The preview extractors stay within the length bound -/

theorem extractPythonPreview_length_le (c : Line) :
    (extractPythonPreview c).length ≤ 60 :=
  limitPreviewLength_length_le _ _ (by decide)

theorem extractBlockCommentPreview_length_le (c : Line) :
    (extractBlockCommentPreview c).length ≤ 60 :=
  limitPreviewLength_length_le _ _ (by decide)

theorem extractCSharpPreview_length_le (c : Line) :
    (extractCSharpPreview c).length ≤ 60 :=
  limitPreviewLength_length_le _ _ (by decide)

theorem extractGenericPreview_length_le (c : Line) :
    (extractGenericPreview c).length ≤ 60 := by
  unfold extractGenericPreview
  split
  · exact limitPreviewLength_length_le _ _ (by decide)
  · decide

theorem extractPreviewByLanguage_length_le (c : Line) (lang : String) :
    (extractPreviewByLanguage c lang).length ≤ 60 := by
  unfold extractPreviewByLanguage
  split
  · exact extractPythonPreview_length_le c
  · split
    · exact extractCSharpPreview_length_le c
    · split
      · exact extractBlockCommentPreview_length_le c
      · exact extractGenericPreview_length_le c

/-! ## Bounds for the inner search loops -/

theorem findEndAux_some {p : DocstringPattern} {lines : List Line} :
    ∀ fuel j r, findEndAux p lines fuel j = some r → j ≤ r ∧ r < lines.length := by
  intro fuel
  induction fuel with
  | zero => intro j r h; simp [findEndAux] at h
  | succ fuel ih =>
    intro j r h
    simp only [findEndAux] at h
    split at h
    · split at h
      · cases h
        rename_i hj _
        exact ⟨Nat.le_refl _, hj⟩
      · have := ih (j + 1) r h
        exact ⟨by omega, this.2⟩
    · cases h

theorem findEnd_some {p : DocstringPattern} {lines : List Line} {i j : Nat}
    (h : findEnd p lines i = some j) : i ≤ j ∧ j < lines.length :=
  findEndAux_some _ _ _ h

theorem le_extendEndAux {p : DocstringPattern} {lines : List Line} :
    ∀ fuel j, j ≤ extendEndAux p lines fuel j := by
  intro fuel
  induction fuel with
  | zero => intro j; simp [extendEndAux]
  | succ fuel ih =>
    intro j
    simp only [extendEndAux]
    split
    · split
      · have := ih (j + 1)
        omega
      · exact Nat.le_refl _
    · exact Nat.le_refl _

theorem extendEndAux_lt {p : DocstringPattern} {lines : List Line} :
    ∀ fuel j, j < lines.length → extendEndAux p lines fuel j < lines.length := by
  intro fuel
  induction fuel with
  | zero => intro j h; simpa [extendEndAux] using h
  | succ fuel ih =>
    intro j h
    simp only [extendEndAux]
    split
    · split
      · exact ih (j + 1) (by omega)
      · exact h
    · exact h

theorem le_extendEnd {p : DocstringPattern} {lines : List Line} (i : Nat) :
    i ≤ extendEnd p lines i :=
  le_extendEndAux _ _

theorem extendEnd_lt {p : DocstringPattern} {lines : List Line} {i : Nat}
    (h : i < lines.length) : extendEnd p lines i < lines.length :=
  extendEndAux_lt _ _ h

/-! ## Characterization of the blocks emitted by one scan pass -/

theorem mem_scanMultilineAux {p : DocstringPattern} {lang : String} {lines : List Line} :
    ∀ fuel i b, b ∈ scanMultilineAux p lang lines fuel i →
      ∃ k, i ≤ k ∧ k < lines.length ∧ lineAt lines k ≠ [] ∧
        p.startTest (lineAt lines k) = true ∧
        ((p.singleTest (lineAt lines k) = true ∧ b = mkSingleBlock p lang (lineAt lines k) k) ∨
          (p.singleTest (lineAt lines k) = false ∧
            ∃ j, findEnd p lines k = some j ∧ b = mkMultiBlock p lang lines k j)) := by
  intro fuel
  induction fuel with
  | zero => intro i b h; simp [scanMultilineAux] at h
  | succ fuel ih =>
    intro i b h
    simp only [scanMultilineAux] at h
    split at h
    case isTrue hi =>
      split at h
      case isTrue he =>
        obtain ⟨k, hk, rest⟩ := ih (i + 1) b h
        exact ⟨k, by omega, rest⟩
      case isFalse he =>
        split at h
        case isTrue hs =>
          split at h
          case isTrue hsl =>
            rcases List.mem_cons.mp h with rfl | h
            · exact ⟨i, Nat.le_refl _, hi, he, hs, Or.inl ⟨hsl, rfl⟩⟩
            · obtain ⟨k, hk, rest⟩ := ih (i + 1) b h
              exact ⟨k, by omega, rest⟩
          case isFalse hsl =>
            split at h
            case h_1 j hfe =>
              rcases List.mem_cons.mp h with rfl | h
              · exact ⟨i, Nat.le_refl _, hi, he, hs,
                  Or.inr ⟨Bool.not_eq_true _ ▸ hsl, j, hfe, rfl⟩⟩
              · obtain ⟨k, hk, rest⟩ := ih (j + 1) b h
                have hij := findEnd_some hfe
                exact ⟨k, by omega, rest⟩
            case h_2 hfe =>
              obtain ⟨k, hk, rest⟩ := ih (i + 1) b h
              exact ⟨k, by omega, rest⟩
        case isFalse hs =>
          obtain ⟨k, hk, rest⟩ := ih (i + 1) b h
          exact ⟨k, by omega, rest⟩
    case isFalse hi =>
      simp at h

theorem mem_scanPerLineAux {p : DocstringPattern} {lang : String} {lines : List Line} :
    ∀ fuel i b, b ∈ scanPerLineAux p lang lines fuel i →
      ∃ k j, i ≤ k ∧ k ≤ j ∧ j < lines.length ∧ lineAt lines k ≠ [] ∧
        p.startTest (lineAt lines k) = true ∧ b = mkPerLineBlock p lang lines k j := by
  intro fuel
  induction fuel with
  | zero => intro i b h; simp [scanPerLineAux] at h
  | succ fuel ih =>
    intro i b h
    simp only [scanPerLineAux] at h
    split at h
    case isTrue hi =>
      split at h
      case isTrue he =>
        obtain ⟨k, j, hk, rest⟩ := ih (i + 1) b h
        exact ⟨k, j, by omega, rest⟩
      case isFalse he =>
        split at h
        case isTrue hs =>
          rcases List.mem_cons.mp h with rfl | h
          · exact ⟨i, extendEnd p lines i, Nat.le_refl _, le_extendEnd i,
              extendEnd_lt hi, he, hs, rfl⟩
          · obtain ⟨k, j, hk, rest⟩ := ih (extendEnd p lines i + 1) b h
            have := @le_extendEnd p lines i
            exact ⟨k, j, by omega, rest⟩
        case isFalse hs =>
          obtain ⟨k, j, hk, rest⟩ := ih (i + 1) b h
          exact ⟨k, j, by omega, rest⟩
    case isFalse hi =>
      simp at h

theorem scanMultilineAux_start_le {p : DocstringPattern} {lang : String}
    {lines : List Line} {fuel i : Nat} {b : DocstringInfo}
    (h : b ∈ scanMultilineAux p lang lines fuel i) : i ≤ b.startPosition.line := by
  obtain ⟨k, hik, _, _, _, hcase⟩ := mem_scanMultilineAux fuel i b h
  rcases hcase with ⟨_, rfl⟩ | ⟨_, j, _, rfl⟩
  · exact hik
  · exact hik

theorem scanPerLineAux_start_le {p : DocstringPattern} {lang : String}
    {lines : List Line} {fuel i : Nat} {b : DocstringInfo}
    (h : b ∈ scanPerLineAux p lang lines fuel i) : i ≤ b.startPosition.line := by
  obtain ⟨k, j, hik, _, _, _, _, rfl⟩ := mem_scanPerLineAux fuel i b h
  exact hik

theorem scanMultilineAux_chain {p : DocstringPattern} {lang : String} {lines : List Line} :
    ∀ fuel i, List.Chain' (fun a b => a.endPosition.line < b.startPosition.line)
      (scanMultilineAux p lang lines fuel i) := by
  intro fuel
  induction fuel with
  | zero => intro i; simp [scanMultilineAux]
  | succ fuel ih =>
    intro i
    simp only [scanMultilineAux]
    split
    case isTrue hi =>
      split
      case isTrue => exact ih (i + 1)
      case isFalse =>
        split
        case isTrue =>
          split
          case isTrue =>
            rw [List.chain'_cons']
            refine ⟨?_, ih (i + 1)⟩
            intro y hy
            have hmem := List.mem_of_mem_head? hy
            have := scanMultilineAux_start_le hmem
            simp only [mkSingleBlock]
            omega
          case isFalse =>
            split
            case h_1 j hfe =>
              rw [List.chain'_cons']
              refine ⟨?_, ih (j + 1)⟩
              intro y hy
              have hmem := List.mem_of_mem_head? hy
              have := scanMultilineAux_start_le hmem
              simp only [mkMultiBlock]
              omega
            case h_2 => exact ih (i + 1)
        case isFalse => exact ih (i + 1)
    case isFalse => simp

theorem scanPerLineAux_chain {p : DocstringPattern} {lang : String} {lines : List Line} :
    ∀ fuel i, List.Chain' (fun a b => a.endPosition.line < b.startPosition.line)
      (scanPerLineAux p lang lines fuel i) := by
  intro fuel
  induction fuel with
  | zero => intro i; simp [scanPerLineAux]
  | succ fuel ih =>
    intro i
    simp only [scanPerLineAux]
    split
    case isTrue hi =>
      split
      case isTrue => exact ih (i + 1)
      case isFalse =>
        split
        case isTrue =>
          rw [List.chain'_cons']
          refine ⟨?_, ih (extendEnd p lines i + 1)⟩
          intro y hy
          have hmem := List.mem_of_mem_head? hy
          have := scanPerLineAux_start_le hmem
          simp only [mkPerLineBlock]
          omega
        case isFalse => exact ih (i + 1)
    case isFalse => simp

/-! ## `removeDuplicates` -/

theorem removeDupAux_sublist : ∀ (ds : List DocstringInfo) (seen : List (Nat × Nat × Nat × Nat)),
    (removeDupAux ds seen).Sublist ds := by
  intro ds
  induction ds with
  | nil => intro seen; simp [removeDupAux]
  | cons d rest ih =>
    intro seen
    simp only [removeDupAux]
    split
    · exact (ih seen).cons d
    · exact (ih (dupKey d :: seen)).cons₂ d

theorem mem_of_mem_removeDupAux {ds : List DocstringInfo}
    {seen : List (Nat × Nat × Nat × Nat)} {b : DocstringInfo}
    (h : b ∈ removeDupAux ds seen) : b ∈ ds :=
  (removeDupAux_sublist ds seen).mem h

theorem removeDupAux_spec : ∀ (ds : List DocstringInfo) (seen : List (Nat × Nat × Nat × Nat)),
    (∀ b ∈ removeDupAux ds seen, dupKey b ∉ seen) ∧
    (removeDupAux ds seen).Pairwise (fun a b => dupKey a ≠ dupKey b) := by
  intro ds
  induction ds with
  | nil => intro seen; simp [removeDupAux]
  | cons d rest ih =>
    intro seen
    simp only [removeDupAux]
    split
    · exact ih seen
    · rename_i hd
      obtain ⟨h1, h2⟩ := ih (dupKey d :: seen)
      constructor
      · intro b hb
        rcases List.mem_cons.mp hb with rfl | hb
        · exact hd
        · intro hmem
          exact h1 b hb (List.mem_cons_of_mem _ hmem)
      · refine List.Pairwise.cons ?_ h2
        intro b hb heq
        exact h1 b hb (heq ▸ List.mem_cons_self _ _)

theorem removeDupAux_keeps_first :
    ∀ (ds₁ : List DocstringInfo) (d : DocstringInfo) (ds₂ : List DocstringInfo)
      (seen : List (Nat × Nat × Nat × Nat)), dupKey d ∉ seen →
      (∀ e ∈ ds₁, dupKey e ≠ dupKey d) → d ∈ removeDupAux (ds₁ ++ d :: ds₂) seen := by
  intro ds₁
  induction ds₁ with
  | nil =>
    intro d ds₂ seen hseen _
    simp only [List.nil_append, removeDupAux, if_neg hseen]
    exact List.mem_cons_self _ _
  | cons e rest ih =>
    intro d ds₂ seen hseen hne
    simp only [List.cons_append, removeDupAux]
    split
    · exact ih d ds₂ seen hseen fun x hx => hne x (List.mem_cons_of_mem _ hx)
    · refine List.mem_cons_of_mem _ (ih d ds₂ (dupKey e :: seen) ?_ ?_)
      · intro hmem
        rcases List.mem_cons.mp hmem with heq | hmem
        · exact hne e (List.mem_cons_self _ _) heq.symm
        · exact hseen hmem
      · exact fun x hx => hne x (List.mem_cons_of_mem _ hx)

/-! ## Decomposing membership in a detection result -/

theorem mem_detectDocstrings {text languageId : String} {b : DocstringInfo}
    (h : b ∈ detectDocstrings text languageId) :
    ∃ lang, detectLanguage languageId = some lang ∧
      ∃ p ∈ getPatterns lang,
        b ∈ (if p.multiline then scanMultiline p lang (splitOnNl text.data)
          else scanPerLine p lang (splitOnNl text.data)) := by
  unfold detectDocstrings at h
  split at h
  · simp at h
  · rename_i lang hl
    unfold performDetection removeDuplicates at h
    have h2 := mem_of_mem_removeDupAux h
    rw [List.mem_flatMap] at h2
    obtain ⟨p, hp, hb⟩ := h2
    exact ⟨lang, hl, p, hp, hb⟩

theorem mem_builtin_of_mem_getPatterns {p : DocstringPattern} {lang : String}
    (h : p ∈ getPatterns lang) : p ∈ builtinPatterns :=
  List.mem_of_mem_filter h

theorem builtin_singleGroup_no_nl {p : DocstringPattern} (hp : p ∈ builtinPatterns)
    {l : Line} (hl : '\n' ∉ l) : '\n' ∉ p.singleGroup l := by
  simp only [builtinPatterns, List.mem_cons, List.not_mem_nil, or_false] at hp
  rcases hp with rfl | rfl | rfl | rfl | rfl | rfl | rfl | rfl | rfl | rfl <;>
    intro hm <;>
    first
      | exact hl (mem_of_mem_trimStr hm)
      | exact hl (mem_of_mem_dropWs hm)

/-! ## Raw-content slices -/

theorem mem_of_mem_take {α : Type} {a : α} {n : Nat} {l : List α}
    (h : a ∈ l.take n) : a ∈ l :=
  (List.take_sublist n l).mem h

theorem mem_of_mem_drop {α : Type} {a : α} {n : Nat} {l : List α}
    (h : a ∈ l.drop n) : a ∈ l :=
  (List.drop_sublist n l).mem h

theorem lineAt_mem {lines : List Line} {k : Nat} (h : k < lines.length) :
    lineAt lines k ∈ lines := by
  unfold lineAt
  rw [List.getD_eq_getElem _ _ h]
  exact List.getElem_mem h

theorem splitOnNl_sliceJoin_length {lines : List Line} (hnl : ∀ l ∈ lines, '\n' ∉ l)
    {i j : Nat} (hij : i ≤ j) (hj : j < lines.length) :
    (splitOnNl (sliceJoin lines i j)).length = j - i + 1 := by
  unfold sliceJoin
  have hsub : ∀ l ∈ (lines.drop i).take (j + 1 - i), '\n' ∉ l := fun l hl =>
    hnl l (mem_of_mem_drop (mem_of_mem_take hl))
  have hlen : ((lines.drop i).take (j + 1 - i)).length = j + 1 - i := by
    rw [List.length_take, List.length_drop]
    omega
  have hne : (lines.drop i).take (j + 1 - i) ≠ [] := by
    intro hempty
    rw [hempty] at hlen
    simp at hlen
    omega
  rw [splitOnNl_joinNl _ hne hsub, hlen]
  omega

/-! ## `TTLCache` map lemmas -/

theorem mapGet_mapSet_self {K V : Type} [DecidableEq K]
    (es : List (K × CacheEntry V)) (k : K) (e : CacheEntry V) :
    mapGet (mapSet es k e) k = some e := by
  induction es with
  | nil => simp [mapSet, mapGet]
  | cons kv rest ih =>
    obtain ⟨k', v'⟩ := kv
    by_cases hk : k' = k
    · simp [mapSet, hk, mapGet]
    · simp only [mapSet, if_neg hk, mapGet, List.find?]
      rw [show (decide (k' = k)) = false by simp [hk]]
      exact ih

theorem mapGet_mapDelete_self {K V : Type} [DecidableEq K]
    (es : List (K × CacheEntry V)) (k : K) :
    mapGet (mapDelete es k) k = none := by
  induction es with
  | nil => rfl
  | cons kv rest ih =>
    obtain ⟨k', v'⟩ := kv
    by_cases hk : k' = k
    · simpa [mapDelete, List.filter_cons, hk] using ih
    · simp only [mapDelete, List.filter_cons] at ih ⊢
      rw [show (decide ¬(k' = k)) = true by simp [hk]]
      simp only [mapGet, List.find?]
      rw [show (decide (k' = k)) = false by simp [hk]]
      exact ih

/-! ## Claims -/

/-- Claim C1 (amended): for every block returned by `detectDocstrings`,
`startLine ≤ endLine`, and `isSingleLine = true` implies `startLine = endLine`.
The converse implication claimed by the spec does not hold (see the
counterexample below): a multiline-pattern block whose start line also
satisfies the end matcher, but not the single-line matcher, is emitted with
`startLine = endLine` and `isSingleLine = false`. -/
theorem detect_boundary_invariant_amended (text languageId : String) :
    ∀ b ∈ detectDocstrings text languageId,
      b.startPosition.line ≤ b.endPosition.line ∧
      (b.isSingleLine = true → b.startPosition.line = b.endPosition.line) := by
  intro b hb
  obtain ⟨lang, _, p, hp, hmem⟩ := mem_detectDocstrings hb
  split at hmem
  · obtain ⟨k, _, _, _, _, hcase⟩ := mem_scanMultilineAux _ _ _ hmem
    rcases hcase with ⟨_, rfl⟩ | ⟨_, j, hfe, rfl⟩
    · exact ⟨Nat.le_refl _, fun _ => rfl⟩
    · have hkj := findEnd_some hfe
      refine ⟨hkj.1, fun hcontra => ?_⟩
      simp [mkMultiBlock] at hcontra
  · obtain ⟨k, j, _, hkj, _, _, _, rfl⟩ := mem_scanPerLineAux _ _ _ hmem
    refine ⟨hkj, fun h => ?_⟩
    simpa [mkPerLineBlock] using h

/-- Claim C1, counterexample to the claim as stated: on the one-line document
`\"\"\"`, the triple-double-quote pattern's start line satisfies the end matcher
but not the single-line matcher, so `detectDocstrings` returns a single block
with `startLine = endLine = 0` and `isSingleLine = false`, refuting
`isSingleLine = (startLine = endLine)`. -/
theorem detect_boundary_invariant_counterexample :
    (detectDocstrings tripleOnlyText "python").length = 1 ∧
    ((detectDocstrings tripleOnlyText "python").getD 0 dummyInfo).isSingleLine = false ∧
    ((detectDocstrings tripleOnlyText "python").getD 0 dummyInfo).startPosition.line =
      ((detectDocstrings tripleOnlyText "python").getD 0 dummyInfo).endPosition.line := by
  decide

/-- Claim C1, witness: the amended invariant evaluated on the Scenario A
document and its unique detected block. -/
theorem detect_boundary_invariant_witness :
    scenarioABlock.startPosition.line ≤ scenarioABlock.endPosition.line ∧
    (scenarioABlock.isSingleLine = true →
      scenarioABlock.startPosition.line = scenarioABlock.endPosition.line) :=
  detect_boundary_invariant_amended scenarioAText "python" scenarioABlock (by decide)

/-- Claim C2: Scenario A — the input `def f():\n    \"\"\"Hello world\"\"\"\n    pass`
with language `python` yields exactly one block, single-line, starting on line 1,
with preview `Hello world`. -/
theorem scenarioA_detection :
    (detectDocstrings scenarioAText "python").length = 1 ∧
    ((detectDocstrings scenarioAText "python").getD 0 dummyInfo).isSingleLine = true ∧
    ((detectDocstrings scenarioAText "python").getD 0 dummyInfo).startPosition.line = 1 ∧
    ((detectDocstrings scenarioAText "python").getD 0 dummyInfo).preview
      = "Hello world".data := by
  decide

/-- Claim C3: no two blocks of a detection result share the
(startLine, startColumn, endLine, endColumn) key; `removeDuplicates` returns a
sublist of its input (order preserved, nothing new), and an element none of
whose predecessors shares its key — a first occurrence — is kept.  Together
these pin down first-occurrence-wins de-duplication. -/
theorem detect_no_duplicate_positions :
    (∀ text languageId : String,
      (detectDocstrings text languageId).Pairwise (fun a b => dupKey a ≠ dupKey b)) ∧
    (∀ ds : List DocstringInfo, (removeDuplicates ds).Sublist ds) ∧
    (∀ (ds₁ : List DocstringInfo) (d : DocstringInfo) (ds₂ : List DocstringInfo),
      (∀ e ∈ ds₁, dupKey e ≠ dupKey d) → d ∈ removeDuplicates (ds₁ ++ d :: ds₂)) := by
  refine ⟨?_, ?_, ?_⟩
  · intro text lid
    unfold detectDocstrings
    split
    · simp
    · unfold performDetection removeDuplicates
      exact (removeDupAux_spec _ _).2
  · intro ds
    exact removeDupAux_sublist ds []
  · intro ds₁ d ds₂ h
    exact removeDupAux_keeps_first ds₁ d ds₂ [] (by simp) h

/-- Claim C3, witness: a first occurrence preceded by a key-distinct block is
kept by `removeDuplicates`. -/
theorem detect_no_duplicate_positions_witness :
    dummyInfo ∈ removeDuplicates ([dummyInfo2] ++ dummyInfo :: []) :=
  detect_no_duplicate_positions.2.2 [dummyInfo2] dummyInfo []
    (by
      intro e he
      rcases List.mem_singleton.mp he with rfl
      decide)

/-- Claim C10: the blocks emitted by a single pattern's scan pass (multiline or
per-line) are in strictly increasing document order — each block's start line
exceeds the previous block's end line — because the cursor resumes past each
emitted block. -/
theorem scan_pass_blocks_ordered (p : DocstringPattern) (lang : String) (lines : List Line) :
    List.Chain' (fun a b => a.endPosition.line < b.startPosition.line)
      (scanMultiline p lang lines) ∧
    List.Chain' (fun a b => a.endPosition.line < b.startPosition.line)
      (scanPerLine p lang lines) :=
  ⟨scanMultilineAux_chain _ _, scanPerLineAux_chain _ _⟩

/-- Claim C4: a start-matcher hit with no closing line before end-of-file emits
no block and the scan resumes at the next line (the loop step with a failed end
search equals the scan restarted at `i + 1`), and Scenario C — the unterminated
`def f():\n    \"\"\"Unclosed\n    pass` — yields zero blocks. -/
theorem unterminated_candidate_discarded :
    (∀ (p : DocstringPattern) (lang : String) (lines : List Line) (fuel i : Nat),
      i < lines.length → lineAt lines i ≠ [] → p.startTest (lineAt lines i) = true →
      p.singleTest (lineAt lines i) = false → findEnd p lines i = none →
      scanMultilineAux p lang lines (fuel + 1) i =
        scanMultilineAux p lang lines fuel (i + 1)) ∧
    detectDocstrings unclosedText "python" = [] := by
  constructor
  · intro p lang lines fuel i h1 h2 h3 h4 h5
    simp only [scanMultilineAux, if_pos h1, if_neg h2, h3, h4, h5, if_true,
      Bool.false_eq_true, if_false]
  · decide

/-- Claim C4, witness: the resume-at-`i + 1` equation evaluated for the
triple-double-quote pattern at the unterminated start line 1 of Scenario C. -/
theorem unterminated_candidate_discarded_witness :
    scanMultilineAux (tripleQuotePattern "python" dq3) "python" unclosedLines 3 1 =
      scanMultilineAux (tripleQuotePattern "python" dq3) "python" unclosedLines 2 2 :=
  unterminated_candidate_discarded.1 (tripleQuotePattern "python" dq3) "python"
    unclosedLines 2 1 (by decide) (by decide) (by decide) (by decide) (by decide)

/-- Claim C5 (amended): every returned block's preview is at most 60 characters
long, and whenever the string handed to `limitPreviewLength` — the first
non-empty line of the marker-stripped raw content, not the whole stripped raw
content as the spec states — exceeds 60 characters, the preview is cut to 57
characters plus the 3-character ellipsis, totalling exactly 60 and ending in
`...`. -/
theorem preview_bound_amended :
    (∀ text languageId : String, ∀ b ∈ detectDocstrings text languageId,
      b.preview.length ≤ 60) ∧
    (∀ s f : Line, trimStr s ≠ [] → s.length > 60 →
      limitPreviewLength s f = s.take 57 ++ ellipsis ∧
      (limitPreviewLength s f).length = 60 ∧
      endsWithL ellipsis (limitPreviewLength s f) = true) := by
  constructor
  · intro text lid b hb
    obtain ⟨lang, _, p, hp, hmem⟩ := mem_detectDocstrings hb
    split at hmem
    · obtain ⟨k, _, _, _, _, hcase⟩ := mem_scanMultilineAux _ _ _ hmem
      rcases hcase with ⟨_, rfl⟩ | ⟨_, j, _, rfl⟩
      · exact extractPreviewByLanguage_length_le _ _
      · exact extractPreviewByLanguage_length_le _ _
    · obtain ⟨k, j, _, _, _, _, _, rfl⟩ := mem_scanPerLineAux _ _ _ hmem
      exact extractPreviewByLanguage_length_le _ _
  · exact limitPreviewLength_truncates

/-- Claim C5, counterexample to the claim as stated: on `longLineText` the
detected block's raw content stripped of marker tokens is 77 characters long
(beyond the 60 bound), yet the preview is the short first line `short`: it does
not end with the ellipsis and its length is not 60. -/
theorem preview_bound_counterexample :
    (detectDocstrings longLineText "python").length = 1 ∧
    (stripTriples ((detectDocstrings longLineText "python").getD 0 dummyInfo).content).length
      > 60 ∧
    endsWithL ellipsis
      ((detectDocstrings longLineText "python").getD 0 dummyInfo).preview = false ∧
    ((detectDocstrings longLineText "python").getD 0 dummyInfo).preview.length ≠ 60 := by
  decide

/-- Claim C5, witness: the bound applied to the Scenario A block, and the exact
truncation applied to an 80-character preview source. -/
theorem preview_bound_witness :
    scenarioABlock.preview.length ≤ 60 ∧
    (limitPreviewLength (List.replicate 80 'a') docstringFallback).length = 60 ∧
    endsWithL ellipsis (limitPreviewLength (List.replicate 80 'a') docstringFallback)
      = true :=
  ⟨preview_bound_amended.1 scenarioAText "python" scenarioABlock (by decide),
    (preview_bound_amended.2 (List.replicate 80 'a') docstringFallback
      (by decide) (by decide)).2.1,
    (preview_bound_amended.2 (List.replicate 80 'a') docstringFallback
      (by decide) (by decide)).2.2⟩

/-- Claim C6: a language id outside the supported set (the language map keys)
makes `detectDocstrings` return the empty list; being a total function, the
embedding also shows no error is raised on this path. -/
theorem unsupported_language_empty (text languageId : String)
    (h : languageId ∉ supportedLanguageIds) : detectDocstrings text languageId = [] := by
  have hnone : detectLanguage languageId = none := by
    unfold detectLanguage
    rw [List.find?_eq_none.mpr]
    · rfl
    · intro x hx
      simp only [decide_eq_true_eq]
      intro heq
      exact h (heq ▸ List.mem_map_of_mem _ hx)
  unfold detectDocstrings
  rw [hnone]

/-- Claim C6, witness: `ruby` is not a supported language id, so detection on a
Python docstring text under `ruby` is empty. -/
theorem unsupported_language_empty_witness :
    detectDocstrings scenarioAText "ruby" = [] :=
  unsupported_language_empty scenarioAText "ruby" (by decide)

/-- Claim C7: after `set(k, v)` at `t₀`, `get(k)` at `t` returns `v` while
`t - t₀ < ttl` and reports absent once past the TTL (`t > t₀ + ttl`), the
expired entry being removed from the map by that lookup; a later `set` of the
same key overwrites the entry and restarts the TTL from the later write time
(the code stores `expiry = now + ttl` and expires strictly past it). -/
theorem ttl_cache_contract {K V : Type} [DecidableEq K] (c : TTLCache K V) (k : K)
    (v v₀ : V) (t₀ t₁ t : Nat) :
    (t - t₀ < c.ttl → (cacheGet (cacheSet c k v t₀) k t).1 = some v) ∧
    (t > t₀ + c.ttl →
      (cacheGet (cacheSet c k v t₀) k t).1 = none ∧
      mapGet ((cacheGet (cacheSet c k v t₀) k t).2).entries k = none) ∧
    (t - t₁ < c.ttl →
      (cacheGet (cacheSet (cacheSet c k v₀ t₀) k v t₁) k t).1 = some v) ∧
    (t > t₁ + c.ttl →
      (cacheGet (cacheSet (cacheSet c k v₀ t₀) k v t₁) k t).1 = none) := by
  have hget1 : mapGet (cacheSet c k v t₀).entries k = some ⟨v, t₀ + c.ttl⟩ :=
    mapGet_mapSet_self _ _ _
  have hget2 : mapGet (cacheSet (cacheSet c k v₀ t₀) k v t₁).entries k
      = some ⟨v, t₁ + c.ttl⟩ :=
    mapGet_mapSet_self _ _ _
  refine ⟨?_, ?_, ?_, ?_⟩
  · intro h
    simp only [cacheGet, hget1]
    rw [if_neg (by omega)]
  · intro h
    simp only [cacheGet, hget1]
    rw [if_pos (by omega)]
    exact ⟨rfl, mapGet_mapDelete_self _ _⟩
  · intro h
    simp only [cacheGet, hget2]
    rw [if_neg (by omega)]
  · intro h
    simp only [cacheGet, hget2]
    rw [if_pos (by omega)]

/-- Claim C7, witness: a `Nat`-keyed cache with TTL 100 — a read at 60 hits, a
read at 201 misses, and after an overwrite at 50 a read at 60 sees the new
value. -/
theorem ttl_cache_contract_witness :
    (cacheGet (cacheSet (⟨100, []⟩ : TTLCache Nat Nat) 0 7 0) 0 60).1 = some 7 ∧
    (cacheGet (cacheSet (⟨100, []⟩ : TTLCache Nat Nat) 0 7 0) 0 201).1 = none ∧
    (cacheGet (cacheSet (cacheSet (⟨100, []⟩ : TTLCache Nat Nat) 0 3 0) 0 7 50) 0 60).1
      = some 7 :=
  ⟨(ttl_cache_contract ⟨100, []⟩ 0 7 3 0 50 60).1 (by decide),
    ((ttl_cache_contract ⟨100, []⟩ 0 7 3 0 50 201).2.1 (by decide)).1,
    (ttl_cache_contract ⟨100, []⟩ 0 7 3 0 50 60).2.2.1 (by decide)⟩

/-- Claim C8 (amended): the engine's detection entry point `detectDocstrings`
takes no cancellation signal and always computes the full result; cancellation
is observed only by the folding-range provider, which checks the externally
supplied token at entry, again after detection returns, and once per block
while converting blocks to ranges.  A check cancelled before any range is
accumulated (samples 0, 1, and the first per-block sample 2) yields the empty
list, and a per-block check cancelled later breaks the loop and returns
exactly the folding ranges accumulated from the blocks already processed
(never an error): cancelling first at the sample that follows the blocks
`ds₁` collapses the conversion of `ds₁ ++ d :: ds₂` to the conversion of
`ds₁` alone. -/
theorem provider_cancellation_amended (tok : Nat → Bool) (text languageId : String) :
    (tok 0 = true → provideFoldingRanges tok text languageId = []) ∧
    (tok 1 = true → provideFoldingRanges tok text languageId = []) ∧
    (tok 2 = true → provideFoldingRanges tok text languageId = []) ∧
    (∀ (lineCount n : Nat) (ds₁ : List DocstringInfo) (d : DocstringInfo)
      (ds₂ : List DocstringInfo),
      (∀ m, n ≤ m → m < n + ds₁.length → tok m = false) →
      tok (n + ds₁.length) = true →
      calcFoldingRangesAux tok lineCount (ds₁ ++ d :: ds₂) n =
        calcFoldingRangesAux tok lineCount ds₁ n) := by
  refine ⟨?_, ?_, ?_, ?_⟩
  · intro h
    unfold provideFoldingRanges
    rw [if_pos h]
  · intro h
    unfold provideFoldingRanges
    by_cases h0 : tok 0 = true
    · rw [if_pos h0]
    · rw [if_neg h0, if_pos h]
  · intro h
    unfold provideFoldingRanges
    by_cases h0 : tok 0 = true
    · rw [if_pos h0]
    · rw [if_neg h0]
      by_cases h1 : tok 1 = true
      · rw [if_pos h1]
      · rw [if_neg h1]
        cases detectDocstrings text languageId with
        | nil => rfl
        | cons d rest => simp only [calcFoldingRangesAux, h, if_true]
  · intro lineCount n ds₁
    induction ds₁ generalizing n with
    | nil =>
      intro d ds₂ _ hcancel
      simp only [List.length_nil, Nat.add_zero] at hcancel
      simp [calcFoldingRangesAux, hcancel]
    | cons e rest ih =>
      intro d ds₂ hfalse hcancel
      have hn : tok n = false := by
        refine hfalse n (Nat.le_refl n) ?_
        simp only [List.length_cons]
        omega
      have hnn : ¬ tok n = true := by simp [hn]
      have hcancel' : tok (n + 1 + rest.length) = true := by
        have harith : n + 1 + rest.length = n + (e :: rest).length := by
          simp only [List.length_cons]
          omega
        rw [harith]
        exact hcancel
      have hfalse' : ∀ m, n + 1 ≤ m → m < n + 1 + rest.length → tok m = false := by
        intro m hm1 hm2
        refine hfalse m (by omega) ?_
        simp only [List.length_cons]
        omega
      have hrec := ih (n + 1) d ds₂ hfalse' hcancel'
      simp only [List.cons_append, calcFoldingRangesAux, if_neg hnn]
      by_cases h1 :
          (e.isSingleLine && decide (e.startPosition.line = e.endPosition.line)) = true
      · simp only [if_pos h1, List.append_eq, hrec]
      · simp only [if_neg h1]
        by_cases h2 : isValidFoldingRange lineCount e = true
        · simp only [if_pos h2, List.append_eq, hrec]
        · simp only [if_neg h2, List.append_eq, hrec]

/-- Claim C8, counterexample to the claim as stated: `detectDocstrings` — the
engine's public detection entry point — accepts no cancellation signal, so its
result cannot depend on one; against the spec-modelled cancellable entry point
`detectDocstringsCancellable`, a signal observed from the start would return
the empty accumulation, while the code's entry point returns both blocks of
`twoQuoteStylesText`. -/
theorem engine_cancellation_counterexample :
    detectDocstringsCancellable (fun _ => true) twoQuoteStylesText "python" = [] ∧
    (detectDocstrings twoQuoteStylesText "python").length = 2 ∧
    detectDocstrings twoQuoteStylesText "python" ≠
      detectDocstringsCancellable (fun _ => true) twoQuoteStylesText "python" := by
  decide

/-- Claim C8, witness: an always-cancelled token makes the provider return the
empty list, and a token first cancelled at the per-block sample 3 makes the
conversion of two blocks collapse to the conversion of the first block alone
(the accumulated partial result). -/
theorem provider_cancellation_witness :
    provideFoldingRanges (fun _ => true) scenarioAText "python" = [] ∧
    calcFoldingRangesAux (fun n => decide (n = 3)) 5 ([dummyInfo2] ++ dummyInfo :: []) 2 =
      calcFoldingRangesAux (fun n => decide (n = 3)) 5 [dummyInfo2] 2 :=
  ⟨(provider_cancellation_amended (fun _ => true) scenarioAText "python").1 rfl,
    (provider_cancellation_amended (fun n => decide (n = 3)) scenarioAText "python").2.2.2
      5 2 [dummyInfo2] dummyInfo []
      (by
        intro m hm1 hm2
        simp only [List.length_cons, List.length_nil] at hm2
        have hm : m = 2 := by omega
        subst hm
        decide)
      (by decide)⟩

/-- Claim C9 (amended): for every returned block, the raw content's line count
equals `endLine - startLine + 1`.  Every block that is not single-line, and
every block emitted by a per-line (non-multiline) pattern's scan — including
single-line `///` runs — carries exactly the newline-joined source text of
lines `startLine..endLine`; only a single-line block emitted by a multiline
pattern's `singleLinePattern` instead carries the regex capture — the matched
docstring text without the line's surrounding whitespace (`singleGroup`), not
the exact line text (see the counterexample). -/
theorem rawContent_amended :
    (∀ text languageId : String, ∀ b ∈ detectDocstrings text languageId,
      (splitOnNl b.content).length = b.endPosition.line - b.startPosition.line + 1) ∧
    (∀ text languageId : String, ∀ b ∈ detectDocstrings text languageId,
      b.isSingleLine = false →
      b.content = sliceJoin (splitOnNl text.data) b.startPosition.line b.endPosition.line) ∧
    (∀ (p : DocstringPattern) (lang : String) (lines : List Line) (fuel i : Nat),
      ∀ b ∈ scanPerLineAux p lang lines fuel i,
        b.content = sliceJoin lines b.startPosition.line b.endPosition.line) ∧
    (∀ (p : DocstringPattern) (lang : String) (lines : List Line) (fuel i : Nat),
      ∀ b ∈ scanMultilineAux p lang lines fuel i, b.isSingleLine = true →
        b.content = p.singleGroup (lineAt lines b.startPosition.line)) := by
  refine ⟨?_, ?_, ?_, ?_⟩
  · intro text lid b hb
    obtain ⟨lang, _, p, hp, hmem⟩ := mem_detectDocstrings hb
    have hnl : ∀ l ∈ splitOnNl text.data, '\n' ∉ l := not_nl_mem_splitOnNl text.data
    split at hmem
    · obtain ⟨k, _, hk, _, _, hcase⟩ := mem_scanMultilineAux _ _ _ hmem
      rcases hcase with ⟨_, rfl⟩ | ⟨_, j, hfe, rfl⟩
      · have hline : '\n' ∉ lineAt (splitOnNl text.data) k :=
          hnl _ (lineAt_mem hk)
        have hgroup : '\n' ∉ p.singleGroup (lineAt (splitOnNl text.data) k) :=
          builtin_singleGroup_no_nl (mem_builtin_of_mem_getPatterns hp) hline
        simp only [mkSingleBlock, splitOnNl_no_nl _ hgroup, List.length_cons,
          List.length_nil]
        omega
      · have hkj := findEnd_some hfe
        simpa only [mkMultiBlock] using
          splitOnNl_sliceJoin_length hnl hkj.1 hkj.2
    · obtain ⟨k, j, _, hkj, hj, _, _, rfl⟩ := mem_scanPerLineAux _ _ _ hmem
      simpa only [mkPerLineBlock] using splitOnNl_sliceJoin_length hnl hkj hj
  · intro text lid b hb hfalse
    obtain ⟨lang, _, p, hp, hmem⟩ := mem_detectDocstrings hb
    split at hmem
    · obtain ⟨k, _, _, _, _, hcase⟩ := mem_scanMultilineAux _ _ _ hmem
      rcases hcase with ⟨_, rfl⟩ | ⟨_, j, _, rfl⟩
      · simp [mkSingleBlock] at hfalse
      · rfl
    · obtain ⟨k, j, _, _, _, _, _, rfl⟩ := mem_scanPerLineAux _ _ _ hmem
      rfl
  · intro p lang lines fuel i b hb
    obtain ⟨k, j, _, _, _, _, _, rfl⟩ := mem_scanPerLineAux _ _ _ hb
    rfl
  · intro p lang lines fuel i b hb htrue
    obtain ⟨k, _, _, _, _, hcase⟩ := mem_scanMultilineAux _ _ _ hb
    rcases hcase with ⟨_, rfl⟩ | ⟨_, j, _, rfl⟩
    · rfl
    · simp [mkMultiBlock] at htrue

/-- Claim C9, counterexample to the claim as stated: the Scenario A block's raw
content is the capture `\"\"\"Hello world\"\"\"`, not the exact source text of
line 1, which carries four leading spaces. -/
theorem rawContent_counterexample :
    (detectDocstrings scenarioAText "python").length = 1 ∧
    ((detectDocstrings scenarioAText "python").getD 0 dummyInfo).content ≠
      sliceJoin (splitOnNl scenarioAText.data) 1 1 := by
  decide

/-- Claim C9, witness: the line-count invariant evaluated on the Scenario A
block, and the exact-text property evaluated on a concrete single-line `///`
block of the per-line scan. -/
theorem rawContent_amended_witness :
    (splitOnNl scenarioABlock.content).length =
      scenarioABlock.endPosition.line - scenarioABlock.startPosition.line + 1 ∧
    csharpBlock.content = sliceJoin (splitOnNl csharpText.data)
      csharpBlock.startPosition.line csharpBlock.endPosition.line :=
  ⟨rawContent_amended.1 scenarioAText "python" scenarioABlock (by decide),
    rawContent_amended.2.2.1 csharpSlashPattern "csharp" (splitOnNl csharpText.data)
      2 0 csharpBlock (by decide)⟩

end DocuFold
